import Mathlib

/-!
Five-Word Chain: verification of the core logic.

A shallow embedding of `src/script.js`: the randomized chain builder
(`buildIndexByFirstLetter`, `tryBuildChain`, the retry loop in `newGame`)
and the sequential-match input state machine (`onKeyDown`, `completeWord`).

JS strings are modelled as `List Char`; `s[i]` (which yields `undefined`
out of range) becomes `List.get?`.  The `Math.random()` calls are modelled
by an injected random source `Rnd`: each draw `Math.floor(random * len)`
becomes `r % len` for a source value `r`, which ranges over exactly the
indices `[0, len)` when `len > 0`.  The degenerate `len = 0` start-word
draw is the one place the JS code can throw (an undefined `w1` makes
`prev[4]` raise a TypeError); the builder's result type therefore keeps
the thrown-exception path (`crashed`) distinct from the ordinary `null`
result (`failure`).  All theorems quantify over every random source.
-/

namespace WordChain

abbrev Word := List Char

/-- Embedding of `buildIndexByFirstLetter` (script.js:52-60): letter → words starting
with that letter, in dictionary order.  The JS `Map` key is `w[0]`, which
is `undefined` for an empty string, hence the `Option Char` key. -/
def buildIndexByFirstLetter (words : List Word) (c : Option Char) : List Word :=
  words.filter (fun w => w.get? 0 == c)

/-- The inner `for (i=1; i<5; i++)` loop of `tryBuildChain`
(script.js:70-78), with `k` letters still to add.  `chain` doubles as the
`used` set (the JS keeps them in lockstep).  `picks i` drives the random
candidate choice at step `i`. -/
def extendChain (byFirst : Option Char → List Word) (picks : Nat → Nat) :
    List Word → Nat → Option (List Word)
  | chain, 0 => some chain
  | chain, k + 1 =>
    match chain.getLast? with
    | none => none
    | some prev =>
      let candidates := (byFirst (prev.get? 4)).filter (fun w => !chain.contains w)
      match candidates.get? (picks chain.length % candidates.length) with
      | none => none
      | some pick => extendChain byFirst picks (chain ++ [pick]) k

/-- Outcome of one attempt of the `for (t...)` loop body: a full chain
(`return chain`), an ordinary abort (`ok = false`, next attempt), or a
thrown TypeError — on an empty dictionary `words[...]` is `undefined`
and `prev[4]` throws at script.js:72, the only throwing path. -/
inductive AttemptResult where
  | ok (c : List Word)
  | abort
  | crash
deriving DecidableEq, Repr

/-- Result of a whole build call: a chain, the ordinary `null` return
after exhausting attempts, or a propagated TypeError. -/
inductive BuildResult where
  | built (c : List Word)
  | failure
  | crashed
deriving DecidableEq, Repr

/-- One attempt of `tryBuildChain` (script.js:66-79): a random start word
then four extension steps.  An undefined start word (empty dictionary)
crashes rather than aborting, as the source does. -/
def runAttempt (byFirst : Option Char → List Word) (words : List Word)
    (start : Nat) (picks : Nat → Nat) : AttemptResult :=
  match words.get? (start % words.length) with
  | none => .crash
  | some w1 =>
    match extendChain byFirst picks [w1] 4 with
    | some c => .ok c
    | none => .abort

/-- Injected random source: `start t` drives the start-word draw of
attempt `t`, `pick t` drives the candidate draws of attempt `t`. -/
structure Rnd where
  start : Nat → Nat
  pick : Nat → Nat → Nat

/-- The `for (t=0; t<maxTries; t++)` loop of `tryBuildChain`
(script.js:65-80): `t` is the current attempt index, `fuel` the number of
attempts left.  A crashing attempt aborts the whole loop — the exception
propagates, no further attempts run. -/
def tryLoop (byFirst : Option Char → List Word) (words : List Word) (r : Rnd) :
    Nat → Nat → BuildResult
  | _, 0 => .failure
  | t, fuel + 1 =>
    match runAttempt byFirst words (r.start t) (r.pick t) with
    | .ok c => .built c
    | .abort => tryLoop byFirst words r (t + 1) fuel
    | .crash => .crashed

/-- Embedding of `tryBuildChain` (script.js:62-82): up to `maxTries`
randomized attempts; `null` (here `.failure`) when all attempts run and
fail, `.crashed` when an attempt throws. -/
def tryBuildChain (words : List Word) (r : Rnd) (maxTries : Nat) : BuildResult :=
  tryLoop (buildIndexByFirstLetter words) words r 0 maxTries

/-- The chain-acquisition part of `newGame` (script.js:275-284): one
build from the cache, then while failing up to 3 retries on reshuffled
copies `s1 s2 s3`, surfacing `.failure` ("Could not build a valid
chain") only after all fail.  A thrown TypeError propagates out of
`newGame` (an async function, so an unhandled rejection): the retries
and the failure message never run. -/
def newGameChain (cache s1 s2 s3 : List Word) (r0 r1 r2 r3 : Rnd) (maxTries : Nat) :
    BuildResult :=
  match tryBuildChain cache r0 maxTries with
  | .crashed => .crashed
  | .built c => .built c
  | .failure =>
    match tryBuildChain s1 r1 maxTries with
    | .crashed => .crashed
    | .built c => .built c
    | .failure =>
      match tryBuildChain s2 r2 maxTries with
      | .crashed => .crashed
      | .built c => .built c
      | .failure => tryBuildChain s3 r3 maxTries

/-! ## The game state machine -/

/-- The mutable `game` object (script.js:117-125), minus the timer fields
(purely observational). -/
structure Game where
  words : List Word
  idx : Nat
  typed : List Char
  greenCount : Nat
  active : Bool
deriving DecidableEq, Repr

/-- Keyboard events as dispatched by `onKeyDown` (script.js:202-263):
`Enter`, `Backspace`, a single-character key, or anything else. -/
inductive Key where
  | enter
  | backspace
  | char (c : Char)
  | other
deriving DecidableEq, Repr

/-- Observable effects emitted by one `onKeyDown` call.  `tooShort`
bundles the "Too short." status text with its shake cue (one failure
signal, per the spec); `progress n` is the "Good! Next letter is position
n" status with its nudge cue; `scheduleComplete` records that
`completeWord()` was invoked — its state mutation runs later, after the
200ms `await sleep`, modelled separately by `fireComplete`. -/
inductive Sig where
  | tooShort
  | render
  | progress (pos : Nat)
  | scheduleComplete
deriving DecidableEq, Repr

/-- The matching loop of the Enter handler (script.js:217-224): number of
leading characters of `typed` that agree with `target` starting at
absolute position `start`, stopping at the first mismatch (a position
past the end of `target` compares unequal, as `undefined` does in JS). -/
def countMatches (typed target : List Char) (start : Nat) : Nat :=
  match typed with
  | [] => 0
  | c :: rest =>
    if target.get? start == some c then countMatches rest target (start + 1) + 1 else 0

/-- The `const target = game.words[game.idx]` of script.js:214. -/
def currentTarget (g : Game) : List Char :=
  g.words.getD g.idx []

/-- The `/^[a-z]$/i` test of script.js:257. -/
def isLetterKey (c : Char) : Bool :=
  ('a' ≤ c && c ≤ 'z') || ('A' ≤ c && c ≤ 'Z')

/-- Embedding of `onKeyDown` (script.js:202-263), returning the new state and the
emitted effects.  State is untouched when `!active`. -/
def onKeyDown (g : Game) (k : Key) : Game × List Sig :=
  if !g.active then (g, [])
  else
    match k with
    | .enter =>
      if g.greenCount + g.typed.length < 5 then (g, [.tooShort])
      else
        let target := g.words.getD g.idx []
        let newGreens := g.greenCount + countMatches g.typed target g.greenCount
        let g' := { g with greenCount := newGreens, typed := [] }
        if 5 ≤ newGreens then (g', [.render, .scheduleComplete])
        else (g', [.render, .progress (newGreens + 1)])
    | .backspace =>
      if 0 < g.typed.length then ({ g with typed := g.typed.dropLast }, [.render])
      else (g, [])
    | .char c =>
      if isLetterKey c then
        if 5 ≤ g.greenCount + g.typed.length then (g, [])
        else ({ g with typed := g.typed ++ [c.toUpper] }, [.render])
      else (g, [])
    | .other => (g, [])

/-- The state mutation of `completeWord` (script.js:173-199) that runs
after `await sleep(200)`: advance `idx`, clear the buffer, reveal the
next word's hint (`greenCount = 1`) or finish (`active = false`).  The
JS continuation does not consult `active` or guard against re-entry. -/
def fireComplete (g : Game) : Game :=
  if g.idx + 1 < 5 then
    { g with idx := g.idx + 1, typed := [], greenCount := 1 }
  else
    { g with idx := g.idx + 1, typed := [], greenCount := 0, active := false }

/-- The state reset of `newGame` (script.js:289-293) once a chain is
built: word 0 active with its first letter pre-confirmed as the hint. -/
def initGame (chain : List Word) : Game :=
  { words := chain, idx := 0, typed := [], greenCount := 1, active := true }

/-- Feeding a sequence of key events to the state machine. -/
def runKeys (g : Game) (ks : List Key) : Game :=
  ks.foldl (fun s k => (onKeyDown s k).1) g

/-- States reachable in the event loop: a fresh game, then any
interleaving of key events and pending `completeWord` continuations. -/
inductive Reachable : Game → Prop where
  | init (chain : List Word) : Reachable (initGame chain)
  | stepKey {g : Game} (k : Key) : Reachable g → Reachable (onKeyDown g k).1
  | stepFire {g : Game} : Reachable g → Reachable (fireComplete g)

/-! ## The spec's Chain invariant (for the `init` precondition claim)

These definitions follow the spec's words (§3 Data Model), not the code:
they are the precondition against which `newGame`'s accepted chains are
compared. -/

/-- The spec's Word well-formedness: exactly 5 uppercase alphabetic
characters. -/
def specValidWord (w : Word) : Bool :=
  w.length == 5 && w.all (fun ch => 'A' ≤ ch && ch ≤ 'Z')

/-- Pairwise distinctness of the chain's words, per the spec. -/
def pairwiseDistinct : List Word → Bool
  | [] => true
  | a :: rest => !rest.contains a && pairwiseDistinct rest

/-- The spec's adjacency rule: `chain[i][4] == chain[i+1][0]`. -/
def adjacentOK : List Word → Bool
  | a :: b :: rest => (a.get? 4 == b.get? 0) && adjacentOK (b :: rest)
  | _ => true

/-- The spec's Chain invariant (§3): exactly 5 valid Words, pairwise
distinct, adjacent by last-letter/first-letter. -/
def specChainInvariant (c : List Word) : Bool :=
  c.length == 5 && c.all specValidWord && pairwiseDistinct c && adjacentOK c

/-! ## Concrete data for witnesses -/

def wSOUND : Word := ['S', 'O', 'U', 'N', 'D']
def wDRIFT : Word := ['D', 'R', 'I', 'F', 'T']
def wTRACE : Word := ['T', 'R', 'A', 'C', 'E']
def wEAGER : Word := ['E', 'A', 'G', 'E', 'R']
def wROAST : Word := ['R', 'O', 'A', 'S', 'T']
def wDEMAND : Word := ['D', 'E', 'M', 'A', 'N', 'D']

def dictEx : List Word := [wSOUND, wDRIFT, wTRACE, wEAGER, wROAST]

def chainEx : List Word := [wSOUND, wDRIFT, wTRACE, wEAGER, wROAST]

/-- The spec's concrete invalid chain: adjacency fails at DEMAND→DRIFT. -/
def badChain : List Word := [wSOUND, wDEMAND, wDRIFT, wTRACE, wEAGER]

/-- A deterministic random source that always draws index 0. -/
def rnd0 : Rnd := ⟨fun _ => 0, fun _ _ => 0⟩

/-- Example mid-word state: playing word 1 of `chainEx` (SOUND), hint S
confirmed, buffer "OU". -/
def gOU : Game :=
  { words := chainEx, idx := 0, typed := ['O', 'U'], greenCount := 1, active := true }

/-- Example state with a partially wrong buffer "OXND" against SOUND. -/
def gOXND : Game :=
  { words := chainEx, idx := 0, typed := ['O', 'X', 'N', 'D'], greenCount := 1, active := true }

/-- Example mid-transition state: word 1 fully matched (`greenCount = 5`,
buffer cleared), the `completeWord` continuation still pending. -/
def gMid : Game :=
  { words := chainEx, idx := 0, typed := [], greenCount := 5, active := true }

/-- Example mid-transition state on the last word: word 5 fully matched,
its `completeWord` continuation still pending. -/
def gLast : Game :=
  { words := chainEx, idx := 4, typed := [], greenCount := 5, active := true }

/-! ## Lemmas about the matching loop -/

theorem countMatches_le (typed : List Char) : ∀ (target : List Char) (start : Nat),
    countMatches typed target start ≤ typed.length := by
  induction typed with
  | nil => intro target start; simp [countMatches]
  | cons c rest ih =>
    intro target start
    simp only [countMatches, List.length_cons]
    by_cases hc : (target.get? start == some c) = true
    · rw [if_pos hc]
      exact Nat.succ_le_succ (ih target (start + 1))
    · rw [if_neg hc]
      omega

theorem countMatches_sound (typed : List Char) : ∀ (target : List Char) (start i : Nat),
    i < countMatches typed target start →
    typed.get? i = target.get? (start + i) := by
  induction typed with
  | nil => intro target start i hi; simp [countMatches] at hi
  | cons c rest ih =>
    intro target start i hi
    simp only [countMatches] at hi
    by_cases hc : (target.get? start == some c) = true
    · rw [if_pos hc] at hi
      cases i with
      | zero =>
        rw [Nat.add_zero, List.get?_cons_zero, eq_of_beq hc]
      | succ j =>
        have hj := ih target (start + 1) j (by omega)
        rw [List.get?_cons_succ, show start + (j + 1) = start + 1 + j by omega]
        exact hj
    · rw [if_neg hc] at hi
      omega

theorem countMatches_stop (typed : List Char) : ∀ (target : List Char) (start : Nat),
    countMatches typed target start < typed.length →
    typed.get? (countMatches typed target start) ≠
      target.get? (start + countMatches typed target start) := by
  induction typed with
  | nil => intro target start h; simp at h
  | cons c rest ih =>
    intro target start h
    simp only [countMatches, List.length_cons] at h ⊢
    by_cases hc : (target.get? start == some c) = true
    · rw [if_pos hc] at h ⊢
      have hr := ih target (start + 1) (by omega)
      rw [List.get?_cons_succ,
        show start + (countMatches rest target (start + 1) + 1)
          = start + 1 + countMatches rest target (start + 1) by omega]
      exact hr
    · rw [if_neg hc]
      rw [Nat.add_zero, List.get?_cons_zero]
      intro hcontra
      exact hc (beq_iff_eq.mpr hcontra.symm)

/-! ## Lemmas about the chain builder -/

theorem mem_buildIndex {words : List Word} {need : Option Char} {w : Word}
    (h : w ∈ buildIndexByFirstLetter words need) : w ∈ words ∧ w.get? 0 = need := by
  unfold buildIndexByFirstLetter at h
  rw [List.mem_filter] at h
  exact ⟨h.1, by simpa using h.2⟩

theorem head?_eq_get0 {α : Type} (l : List α) : l.head? = l.get? 0 := by
  cases l <;> rfl

theorem getLast?_eq_get4 {α : Type} (l : List α) (h : l.length = 5) :
    l.getLast? = l.get? 4 := by
  match l, h with
  | [_, _, _, _, _], _ => rfl

theorem extendChain_props (words : List Word) (picks : Nat → Nat) :
    ∀ (k : Nat) (chain c : List Word),
      extendChain (buildIndexByFirstLetter words) picks chain k = some c →
      c.length = chain.length + k ∧
      (∀ w ∈ c, w ∈ chain ∨ w ∈ words) ∧
      (chain.Nodup → c.Nodup) ∧
      (List.Chain' (fun a b : Word => a.get? 4 = b.get? 0) chain →
        List.Chain' (fun a b : Word => a.get? 4 = b.get? 0) c) := by
  intro k
  induction k with
  | zero =>
    intro chain c h
    simp only [extendChain] at h
    have hc := Option.some.inj h
    subst hc
    exact ⟨rfl, fun w hw => Or.inl hw, fun hnd => hnd, fun hch => hch⟩
  | succ m ih =>
    intro chain c h
    simp only [extendChain] at h
    split at h
    · exact Option.noConfusion h
    · next prev hlast =>
      split at h
      · exact Option.noConfusion h
      · next pick hpick =>
        obtain ⟨hlen, hmem, hnd, hch⟩ := ih (chain ++ [pick]) c h
        have hpf := List.mem_filter.mp (List.get?_mem hpick)
        obtain ⟨hpw, hp0⟩ := mem_buildIndex hpf.1
        have hpnot : pick ∉ chain := by simpa using hpf.2
        refine ⟨?_, ?_, ?_, ?_⟩
        · rw [hlen, List.length_append]
          simp only [List.length_cons, List.length_nil]
          omega
        · intro w hw
          rcases hmem w hw with hin | hws
          · rcases List.mem_append.mp hin with h1 | h2
            · exact Or.inl h1
            · rw [List.mem_singleton.mp h2]
              exact Or.inr hpw
          · exact Or.inr hws
        · intro hnd0
          apply hnd
          rw [List.nodup_append]
          exact ⟨hnd0, List.nodup_singleton _, List.disjoint_singleton.mpr hpnot⟩
        · intro hch0
          apply hch
          rw [List.chain'_append]
          refine ⟨hch0, List.chain'_singleton _, ?_⟩
          intro x hx y hy
          rw [Option.mem_def] at hx hy
          rw [hlast] at hx
          have hxp : x = prev := (Option.some.inj hx).symm
          have hyp : y = pick := (Option.some.inj (hy : some pick = some y)).symm
          rw [hxp, hyp]
          exact hp0.symm

theorem runAttempt_props (words : List Word) (start : Nat) (picks : Nat → Nat)
    (c : List Word)
    (h : runAttempt (buildIndexByFirstLetter words) words start picks = .ok c) :
    c.length = 5 ∧ c.Nodup ∧ (∀ w ∈ c, w ∈ words) ∧
    List.Chain' (fun a b : Word => a.get? 4 = b.get? 0) c := by
  unfold runAttempt at h
  split at h
  · exact AttemptResult.noConfusion h
  · next w1 hw1 =>
    split at h
    · next c' hext =>
      have hcc := AttemptResult.ok.inj h
      subst hcc
      obtain ⟨hlen, hmem, hnd, hch⟩ := extendChain_props words picks 4 [w1] _ hext
      have hw1m : w1 ∈ words := List.get?_mem hw1
      refine ⟨by simpa using hlen, hnd (List.nodup_singleton _), ?_,
        hch (List.chain'_singleton _)⟩
      intro w hw
      rcases hmem w hw with h1 | h2
      · rw [List.mem_singleton.mp h1]
        exact hw1m
      · exact h2
    · exact AttemptResult.noConfusion h

theorem runAttempt_ne_crash (byFirst : Option Char → List Word) {words : List Word}
    (hw : words ≠ []) (start : Nat) (picks : Nat → Nat) :
    runAttempt byFirst words start picks ≠ .crash := by
  unfold runAttempt
  have hlt : start % words.length < words.length :=
    Nat.mod_lt _ (List.length_pos.mpr hw)
  rw [List.get?_eq_get hlt]
  split
  · next heq => exact Option.noConfusion heq
  · next w1 heq =>
    split <;> simp

theorem tryLoop_succ_ok (byFirst : Option Char → List Word) (words : List Word)
    (r : Rnd) (t m : Nat) (c : List Word)
    (h : runAttempt byFirst words (r.start t) (r.pick t) = .ok c) :
    tryLoop byFirst words r t (m + 1) = .built c := by
  simp [tryLoop, h]

theorem tryLoop_succ_abort (byFirst : Option Char → List Word) (words : List Word)
    (r : Rnd) (t m : Nat)
    (h : runAttempt byFirst words (r.start t) (r.pick t) = .abort) :
    tryLoop byFirst words r t (m + 1) = tryLoop byFirst words r (t + 1) m := by
  simp [tryLoop, h]

theorem tryLoop_succ_crash (byFirst : Option Char → List Word) (words : List Word)
    (r : Rnd) (t m : Nat)
    (h : runAttempt byFirst words (r.start t) (r.pick t) = .crash) :
    tryLoop byFirst words r t (m + 1) = .crashed := by
  simp [tryLoop, h]

theorem tryLoop_built (byFirst : Option Char → List Word) (words : List Word) (r : Rnd) :
    ∀ (fuel t : Nat) (c : List Word), tryLoop byFirst words r t fuel = .built c →
      ∃ u, runAttempt byFirst words (r.start u) (r.pick u) = .ok c := by
  intro fuel
  induction fuel with
  | zero =>
    intro t c h
    simp only [tryLoop] at h
    exact BuildResult.noConfusion h
  | succ m ih =>
    intro t c h
    cases ha : runAttempt byFirst words (r.start t) (r.pick t) with
    | ok c' =>
      rw [tryLoop_succ_ok byFirst words r t m c' ha] at h
      refine ⟨t, ?_⟩
      rw [ha]
      exact congrArg AttemptResult.ok (BuildResult.built.inj h)
    | abort =>
      rw [tryLoop_succ_abort byFirst words r t m ha] at h
      exact ih (t + 1) c h
    | crash =>
      rw [tryLoop_succ_crash byFirst words r t m ha] at h
      exact BuildResult.noConfusion h

theorem tryLoop_ne_crashed (byFirst : Option Char → List Word) {words : List Word}
    (r : Rnd) (hw : words ≠ []) :
    ∀ (fuel t : Nat), tryLoop byFirst words r t fuel ≠ .crashed := by
  intro fuel
  induction fuel with
  | zero =>
    intro t h
    simp only [tryLoop] at h
    exact BuildResult.noConfusion h
  | succ m ih =>
    intro t h
    cases ha : runAttempt byFirst words (r.start t) (r.pick t) with
    | ok c =>
      rw [tryLoop_succ_ok byFirst words r t m c ha] at h
      exact BuildResult.noConfusion h
    | abort =>
      rw [tryLoop_succ_abort byFirst words r t m ha] at h
      exact ih (t + 1) h
    | crash => exact runAttempt_ne_crash byFirst hw (r.start t) (r.pick t) ha

theorem tryLoop_failure_iff (byFirst : Option Char → List Word) (words : List Word)
    (r : Rnd) :
    ∀ (fuel t : Nat), tryLoop byFirst words r t fuel = .failure ↔
      ∀ j, j < fuel →
        runAttempt byFirst words (r.start (t + j)) (r.pick (t + j)) = .abort := by
  intro fuel
  induction fuel with
  | zero => intro t; simp [tryLoop]
  | succ m ih =>
    intro t
    cases ha : runAttempt byFirst words (r.start t) (r.pick t) with
    | ok c =>
      rw [tryLoop_succ_ok byFirst words r t m c ha]
      apply iff_of_false (by simp)
      intro hall
      have h0 := hall 0 (by omega)
      rw [Nat.add_zero] at h0
      rw [ha] at h0
      exact AttemptResult.noConfusion h0
    | crash =>
      rw [tryLoop_succ_crash byFirst words r t m ha]
      apply iff_of_false (by simp)
      intro hall
      have h0 := hall 0 (by omega)
      rw [Nat.add_zero] at h0
      rw [ha] at h0
      exact AttemptResult.noConfusion h0
    | abort =>
      rw [tryLoop_succ_abort byFirst words r t m ha, ih (t + 1)]
      constructor
      · intro hall j hj
        cases j with
        | zero => rw [Nat.add_zero]; exact ha
        | succ i =>
          have hi := hall i (by omega)
          rw [show t + 1 + i = t + (i + 1) by omega] at hi
          exact hi
      · intro hall j hj
        have hi := hall (j + 1) (by omega)
        rw [show t + (j + 1) = t + 1 + j by omega] at hi
        exact hi

theorem pairwiseDistinct_eq_true {l : List Word} (h : l.Nodup) :
    pairwiseDistinct l = true := by
  induction l with
  | nil => rfl
  | cons a rest ih =>
    obtain ⟨hna, hnd⟩ := List.nodup_cons.mp h
    simp only [pairwiseDistinct, Bool.and_eq_true]
    exact ⟨by simpa using hna, ih hnd⟩

theorem adjacentOK_of_chain' : ∀ {l : List Word},
    List.Chain' (fun a b : Word => a.get? 4 = b.get? 0) l → adjacentOK l = true
  | [], _ => rfl
  | [_], _ => rfl
  | _ :: _ :: _, h => by
    rw [List.chain'_cons] at h
    simp only [adjacentOK, Bool.and_eq_true]
    exact ⟨by simpa using h.1, adjacentOK_of_chain' h.2⟩

theorem tryBuildChain_specValid (d : List Word) (r : Rnd) (n : Nat) (c : List Word)
    (hd : ∀ w ∈ d, specValidWord w = true) (h : tryBuildChain d r n = .built c) :
    specChainInvariant c = true := by
  unfold tryBuildChain at h
  obtain ⟨u, hu⟩ := tryLoop_built (buildIndexByFirstLetter d) d r n 0 c h
  obtain ⟨hlen, hnd, hmem, hch⟩ := runAttempt_props d (r.start u) (r.pick u) c hu
  simp only [specChainInvariant, Bool.and_eq_true]
  refine ⟨⟨⟨by simp [hlen], ?_⟩, pairwiseDistinct_eq_true hnd⟩, adjacentOK_of_chain' hch⟩
  rw [List.all_eq_true]
  intro w hw
  exact hd w (hmem w hw)

/-! ## Lemmas about the state machine -/

theorem onKeyDown_inactive (g : Game) (k : Key) (h : g.active = false) :
    onKeyDown g k = (g, []) := by
  simp [onKeyDown, h]

theorem runKeys_inactive (g : Game) (h : g.active = false) :
    ∀ ks : List Key, runKeys g ks = g := by
  intro ks
  induction ks with
  | nil => rfl
  | cons k rest ih =>
    show runKeys (onKeyDown g k).1 rest = g
    rw [onKeyDown_inactive g k h]
    exact ih

theorem onKeyDown_enter_eval (g : Game) (ha : g.active = true)
    (hge : 5 ≤ g.greenCount + g.typed.length) :
    (onKeyDown g .enter).1 =
      { g with
        greenCount := g.greenCount + countMatches g.typed (g.words.getD g.idx []) g.greenCount,
        typed := [] } := by
  simp only [onKeyDown, ha, Bool.not_true, Bool.false_eq_true, if_false]
  rw [if_neg (by omega)]
  split <;> rfl

/-! ## Claim theorems -/

/-- C4: for every active game state with `greenCount + typed.length < 5`,
Enter (submit) emits only the too-short failure signal (status text plus
shake cue) and leaves the state entirely unchanged — `greenCount`,
`typed`, `wordIndex` and `active` all keep their previous values, the
typed buffer in particular being preserved, not cleared
(script.js:206-212). -/
theorem submit_too_short (g : Game) (ha : g.active = true)
    (hlt : g.greenCount + g.typed.length < 5) :
    onKeyDown g .enter = (g, [Sig.tooShort]) := by
  simp [onKeyDown, ha, hlt]

theorem submit_too_short_witness :
    gOU.active = true ∧ gOU.greenCount + gOU.typed.length < 5 ∧
    onKeyDown gOU .enter = (gOU, [Sig.tooShort]) :=
  ⟨rfl, by decide, submit_too_short gOU rfl (by decide)⟩

/-- C7: backspace never changes `greenCount` (or `idx`, `active`,
`words`); with an empty buffer or an inactive game it is a complete
no-op, and otherwise its only state change is dropping the last character
of `typed` (script.js:247-255). -/
theorem backspace_frame (g : Game) :
    (onKeyDown g .backspace).1.greenCount = g.greenCount ∧
    (onKeyDown g .backspace).1.idx = g.idx ∧
    (onKeyDown g .backspace).1.active = g.active ∧
    (onKeyDown g .backspace).1.words = g.words ∧
    (g.active = false → onKeyDown g .backspace = (g, [])) ∧
    (g.typed = [] → onKeyDown g .backspace = (g, [])) ∧
    (g.active = true → g.typed ≠ [] →
      onKeyDown g .backspace = ({ g with typed := g.typed.dropLast }, [Sig.render])) := by
  cases ha : g.active with
  | false =>
    rw [onKeyDown_inactive g .backspace ha]
    simp [ha]
  | true =>
    cases ht : g.typed with
    | nil => simp [onKeyDown, ha, ht]
    | cons c rest => simp [onKeyDown, ha, ht]

theorem backspace_frame_witness :
    (onKeyDown gOU .backspace).1.greenCount = gOU.greenCount ∧
    onKeyDown gOU .backspace = ({ gOU with typed := gOU.typed.dropLast }, [Sig.render]) :=
  ⟨(backspace_frame gOU).1, (backspace_frame gOU).2.2.2.2.2.2 rfl (by decide)⟩

/-- C10: while the current word is unchanged, `greenCount` never
decreases: characters, backspace and other keys leave it unchanged,
submit only ever adds the number of fresh matches; only the
word-completion continuation (`completeWord`) resets it, to 1 for the
next word or 0 at the end of the chain (script.js:173-199, 202-263). -/
theorem greenCount_monotone (g : Game) (c : Char) :
    (onKeyDown g (.char c)).1.greenCount = g.greenCount ∧
    (onKeyDown g .backspace).1.greenCount = g.greenCount ∧
    (onKeyDown g .other).1.greenCount = g.greenCount ∧
    g.greenCount ≤ (onKeyDown g .enter).1.greenCount ∧
    (fireComplete g).greenCount = (if g.idx + 1 < 5 then 1 else 0) := by
  cases ha : g.active with
  | false =>
    rw [onKeyDown_inactive g (.char c) ha, onKeyDown_inactive g .backspace ha,
      onKeyDown_inactive g .other ha, onKeyDown_inactive g .enter ha]
    refine ⟨rfl, rfl, rfl, Nat.le_refl _, ?_⟩
    simp only [fireComplete]
    split <;> rfl
  | true =>
    refine ⟨?_, ?_, ?_, ?_, ?_⟩
    · simp only [onKeyDown, ha, Bool.not_true, Bool.false_eq_true, if_false]
      split
      · split <;> rfl
      · rfl
    · simp only [onKeyDown, ha, Bool.not_true, Bool.false_eq_true, if_false]
      split <;> rfl
    · simp [onKeyDown, ha]
    · by_cases hge : 5 ≤ g.greenCount + g.typed.length
      · rw [onKeyDown_enter_eval g ha hge]
        exact Nat.le_add_right _ _
      · rw [submit_too_short g ha (by omega)]
    · simp only [fireComplete]
      split <;> rfl

theorem greenCount_monotone_witness :
    (onKeyDown gOU (.char 'U')).1.greenCount = gOU.greenCount ∧
    (fireComplete gMid).greenCount = (if gMid.idx + 1 < 5 then 1 else 0) :=
  ⟨(greenCount_monotone gOU 'U').1, (greenCount_monotone gMid 'U').2.2.2.2⟩

/-- C2: for every active state with `greenCount + typed.length ≥ 5`,
Enter (submit) adds to `greenCount` exactly the number of leading
positions of `typed` that match the target word at absolute positions
starting at `greenCount` — the matched positions agree character by
character, and scanning stops at the first mismatch — and the typed
buffer is always cleared, however many positions matched
(script.js:213-231). -/
theorem submit_eval (g : Game) (ha : g.active = true)
    (hge : 5 ≤ g.greenCount + g.typed.length) :
    (onKeyDown g .enter).1.greenCount
      = g.greenCount + countMatches g.typed (currentTarget g) g.greenCount ∧
    (onKeyDown g .enter).1.typed = [] ∧
    countMatches g.typed (currentTarget g) g.greenCount ≤ g.typed.length ∧
    (∀ i, i < countMatches g.typed (currentTarget g) g.greenCount →
      g.typed.get? i = (currentTarget g).get? (g.greenCount + i)) ∧
    (countMatches g.typed (currentTarget g) g.greenCount < g.typed.length →
      g.typed.get? (countMatches g.typed (currentTarget g) g.greenCount) ≠
        (currentTarget g).get? (g.greenCount +
          countMatches g.typed (currentTarget g) g.greenCount)) := by
  have he := onKeyDown_enter_eval g ha hge
  refine ⟨?_, ?_, countMatches_le _ _ _, ?_, ?_⟩
  · rw [he]; rfl
  · rw [he]
  · intro i hi
    exact countMatches_sound g.typed (currentTarget g) g.greenCount i hi
  · intro hlt
    exact countMatches_stop g.typed (currentTarget g) g.greenCount hlt

theorem submit_eval_witness :
    5 ≤ gOXND.greenCount + gOXND.typed.length ∧
    countMatches gOXND.typed (currentTarget gOXND) gOXND.greenCount = 1 ∧
    (onKeyDown gOXND .enter).1.greenCount
      = gOXND.greenCount + countMatches gOXND.typed (currentTarget gOXND) gOXND.greenCount ∧
    (onKeyDown gOXND .enter).1.typed = [] :=
  ⟨by decide, by decide, (submit_eval gOXND rfl (by decide)).1,
   (submit_eval gOXND rfl (by decide)).2.1⟩

/-- C3: the word-completion continuation increments `wordIndex`; while
words remain it resets `greenCount` to 1 (the next word's hint) and
clears the buffer, still active; on the fifth word it deactivates the
game, after which every key event — character, backspace or submit — is
a no-op leaving the state unchanged (script.js:173-199 and the
`!game.active` guard at 203). -/
theorem complete_transition (g : Game) (ha : g.active = true) (_hg : 5 ≤ g.greenCount)
    (hidx : g.idx < 5) :
    (fireComplete g).idx = g.idx + 1 ∧
    (g.idx + 1 < 5 →
      (fireComplete g).greenCount = 1 ∧ (fireComplete g).typed = [] ∧
      (fireComplete g).active = true) ∧
    (g.idx + 1 = 5 →
      (fireComplete g).active = false ∧ (fireComplete g).typed = [] ∧
      (∀ k, onKeyDown (fireComplete g) k = (fireComplete g, [])) ∧
      (∀ ks, runKeys (fireComplete g) ks = fireComplete g)) := by
  by_cases h5 : g.idx + 1 < 5
  · have hfc : fireComplete g = { g with idx := g.idx + 1, typed := [], greenCount := 1 } := by
      simp [fireComplete, h5]
    rw [hfc]
    exact ⟨rfl, fun _ => ⟨rfl, rfl, ha⟩, fun hcontra => absurd hcontra (by omega)⟩
  · have hfc : fireComplete g
        = { g with idx := g.idx + 1, typed := [], greenCount := 0, active := false } := by
      simp [fireComplete, h5]
    rw [hfc]
    exact ⟨rfl, fun hcontra => absurd hcontra h5,
      fun _ => ⟨rfl, rfl, fun k => onKeyDown_inactive _ k rfl,
        fun ks => runKeys_inactive _ rfl ks⟩⟩

theorem complete_transition_witness :
    (fireComplete gMid).idx = gMid.idx + 1 ∧
    ((fireComplete gMid).greenCount = 1 ∧ (fireComplete gMid).typed = [] ∧
      (fireComplete gMid).active = true) ∧
    ((fireComplete gLast).active = false ∧
      (∀ k, onKeyDown (fireComplete gLast) k = (fireComplete gLast, []))) :=
  ⟨(complete_transition gMid rfl (by decide) (by decide)).1,
   (complete_transition gMid rfl (by decide) (by decide)).2.1 (by decide),
   ((complete_transition gLast rfl (by decide) (by decide)).2.2 (by decide)).1,
   ((complete_transition gLast rfl (by decide) (by decide)).2.2 (by decide)).2.2.1⟩

theorem onKeyDown_preserves_bound (g : Game) (k : Key)
    (h : g.greenCount + g.typed.length ≤ 5) :
    (onKeyDown g k).1.greenCount + (onKeyDown g k).1.typed.length ≤ 5 := by
  cases ha : g.active with
  | false => rw [onKeyDown_inactive g k ha]; exact h
  | true =>
    cases k with
    | enter =>
      by_cases hge : 5 ≤ g.greenCount + g.typed.length
      · rw [onKeyDown_enter_eval g ha hge]
        have hcm := countMatches_le g.typed (g.words.getD g.idx []) g.greenCount
        show g.greenCount + countMatches g.typed (g.words.getD g.idx []) g.greenCount
          + ([] : List Char).length ≤ 5
        simp only [List.length_nil]
        omega
      · rw [submit_too_short g ha (by omega)]
        exact h
    | backspace =>
      simp only [onKeyDown, ha, Bool.not_true, Bool.false_eq_true, if_false]
      split
      · simp only [List.length_dropLast]
        omega
      · exact h
    | char c =>
      simp only [onKeyDown, ha, Bool.not_true, Bool.false_eq_true, if_false]
      by_cases hl : isLetterKey c = true
      · rw [if_pos hl]
        by_cases hge : 5 ≤ g.greenCount + g.typed.length
        · rw [if_pos hge]
          exact h
        · rw [if_neg hge]
          simp only [List.length_append, List.length_cons, List.length_nil]
          omega
      · rw [if_neg hl]
        exact h
    | other =>
      simp only [onKeyDown, ha, Bool.not_true, Bool.false_eq_true, if_false]
      exact h

/-- C8: in every reachable state, `greenCount + typed.length ≤ 5`;
in particular `onChar` refuses to append (is a no-op) once the sum
reaches 5, and every key event — submit and backspace included —
preserves the bound (script.js:257-262 and the submit/backspace
handlers). -/
theorem green_typed_bound :
    (∀ g, Reachable g → g.greenCount + g.typed.length ≤ 5) ∧
    (∀ g c, g.active = true → 5 ≤ g.greenCount + g.typed.length →
      onKeyDown g (.char c) = (g, [])) ∧
    (∀ g k, g.greenCount + g.typed.length ≤ 5 →
      (onKeyDown g k).1.greenCount + (onKeyDown g k).1.typed.length ≤ 5) := by
  refine ⟨?_, ?_, fun g k h => onKeyDown_preserves_bound g k h⟩
  · intro g hr
    induction hr with
    | init chain => simp [initGame]
    | stepKey k hprev ih => exact onKeyDown_preserves_bound _ k ih
    | stepFire hprev ih =>
      simp only [fireComplete]
      split <;> simp
  · intro g c ha hge
    simp only [onKeyDown, ha, Bool.not_true, Bool.false_eq_true, if_false]
    by_cases hl : isLetterKey c = true
    · rw [if_pos hl, if_pos hge]
    · rw [if_neg hl]

theorem green_typed_bound_witness :
    (initGame chainEx).greenCount + (initGame chainEx).typed.length ≤ 5 ∧
    onKeyDown gMid (.char 'A') = (gMid, []) ∧
    (onKeyDown gOU .enter).1.greenCount + (onKeyDown gOU .enter).1.typed.length ≤ 5 :=
  ⟨green_typed_bound.1 _ (Reachable.init chainEx),
   green_typed_bound.2.1 gMid 'A' rfl (by decide),
   green_typed_bound.2.2 gOU .enter (by decide)⟩

/-- C5 (the code contradicts the spec here): after a submission
completes a word, the 200ms `completeWord` continuation is pending while
`active` is still `true`, `greenCount = 5` and the buffer is empty.
Characters and backspace are indeed no-ops in that window, but Enter
re-runs the full submit evaluation and invokes `completeWord` a second
time; once both pending continuations fire, `idx` has advanced twice —
from word 1 straight past word 2 — so an input during the transition
delay does corrupt the state (script.js:173-199, 206-244). -/
theorem submit_during_transition_bug :
    onKeyDown (runKeys (initGame chainEx) [.char 'O', .char 'U', .char 'N', .char 'D']) .enter
      = (gMid, [Sig.render, Sig.scheduleComplete]) ∧
    onKeyDown gMid (.char 'X') = (gMid, []) ∧
    onKeyDown gMid .backspace = (gMid, []) ∧
    (onKeyDown gMid .enter).2 = [Sig.render, Sig.scheduleComplete] ∧
    fireComplete (fireComplete (onKeyDown gMid .enter).1) =
      { words := chainEx, idx := 2, typed := [], greenCount := 1, active := true } :=
  ⟨by decide, by decide, by decide, by decide, by decide⟩

/-- C1: whenever `tryBuildChain` returns a chain (for any random draws,
over a dictionary of 5-letter words), that chain has exactly 5 words,
all pairwise distinct, and each word's last letter equals the next
word's first letter (script.js:62-82). -/
theorem tryBuildChain_valid (words : List Word) (r : Rnd) (n : Nat) (chain : List Word)
    (hw : ∀ w ∈ words, w.length = 5) (h : tryBuildChain words r n = .built chain) :
    chain.length = 5 ∧ chain.Nodup ∧
    List.Chain' (fun a b : Word => a.getLast? = b.head?) chain := by
  unfold tryBuildChain at h
  obtain ⟨u, hu⟩ := tryLoop_built (buildIndexByFirstLetter words) words r n 0 chain h
  obtain ⟨hlen, hnd, hmem, hch⟩ := runAttempt_props words (r.start u) (r.pick u) chain hu
  refine ⟨hlen, hnd, ?_⟩
  rw [List.chain'_iff_get] at hch ⊢
  intro i hi
  have h1 := hch i hi
  have m1 : chain.get ⟨i, by omega⟩ ∈ words := hmem _ (List.get_mem _ _ _)
  have m2 : chain.get ⟨i + 1, by omega⟩ ∈ words := hmem _ (List.get_mem _ _ _)
  rw [getLast?_eq_get4 _ (hw _ m1), head?_eq_get0]
  exact h1

theorem tryBuildChain_valid_witness :
    (∀ w ∈ dictEx, w.length = 5) ∧
    tryBuildChain dictEx rnd0 1 = .built chainEx ∧
    (chainEx.length = 5 ∧ chainEx.Nodup ∧
      List.Chain' (fun a b : Word => a.getLast? = b.head?) chainEx) :=
  ⟨by decide, by decide, tryBuildChain_valid dictEx rnd0 1 chainEx (by decide) (by decide)⟩

/-- C6: the spec's `init` precondition (the Chain invariant of §3)
rejects the concrete chain SOUND,DEMAND,DRIFT,TRACE,EAGER — adjacency
fails at DEMAND→DRIFT — and `newGame` can never silently accept it as
the active chain: the only chains it installs come from `tryBuildChain`
(directly or through its reshuffle retries), and every such chain
satisfies the invariant (script.js:275-293). -/
theorem init_rejects_invalid_chain :
    specChainInvariant badChain = false ∧
    (∀ (cache s1 s2 s3 : List Word) (r0 r1 r2 r3 : Rnd) (n : Nat) (c : List Word),
      (∀ w ∈ cache, specValidWord w = true) →
      s1.Perm cache → s2.Perm cache → s3.Perm cache →
      newGameChain cache s1 s2 s3 r0 r1 r2 r3 n = .built c →
      specChainInvariant c = true ∧ c ≠ badChain) := by
  have hbad : specChainInvariant badChain = false := by decide
  refine ⟨hbad, ?_⟩
  intro cache s1 s2 s3 r0 r1 r2 r3 n c hv hp1 hp2 hp3 h
  have hs1 : ∀ w ∈ s1, specValidWord w = true := fun w hw => hv w (hp1.mem_iff.mp hw)
  have hs2 : ∀ w ∈ s2, specValidWord w = true := fun w hw => hv w (hp2.mem_iff.mp hw)
  have hs3 : ∀ w ∈ s3, specValidWord w = true := fun w hw => hv w (hp3.mem_iff.mp hw)
  have hc : specChainInvariant c = true := by
    unfold newGameChain at h
    split at h
    · exact BuildResult.noConfusion h
    · next c0 h0 =>
      have hc0 := BuildResult.built.inj h
      subst hc0
      exact tryBuildChain_specValid cache r0 n _ hv h0
    · split at h
      · exact BuildResult.noConfusion h
      · next c1 h1 =>
        have hc1 := BuildResult.built.inj h
        subst hc1
        exact tryBuildChain_specValid s1 r1 n _ hs1 h1
      · split at h
        · exact BuildResult.noConfusion h
        · next c2 h2 =>
          have hc2 := BuildResult.built.inj h
          subst hc2
          exact tryBuildChain_specValid s2 r2 n _ hs2 h2
        · exact tryBuildChain_specValid s3 r3 n c hs3 h
  refine ⟨hc, ?_⟩
  intro heq
  rw [heq, hbad] at hc
  exact Bool.noConfusion hc

theorem init_rejects_invalid_chain_witness :
    (∀ w ∈ dictEx, specValidWord w = true) ∧
    newGameChain dictEx dictEx dictEx dictEx rnd0 rnd0 rnd0 rnd0 1 = .built chainEx ∧
    specChainInvariant chainEx = true ∧ chainEx ≠ badChain :=
  ⟨by decide, by decide,
   init_rejects_invalid_chain.2 dictEx dictEx dictEx dictEx rnd0 rnd0 rnd0 rnd0 1 chainEx
     (by decide) (List.Perm.refl _) (List.Perm.refl _) (List.Perm.refl _) (by decide)⟩

/-- C9 (the code crashes in the empty-dictionary case): wherever an
attempt can run at all, failure is an ordinary value — `tryBuildChain`
yields its `null` result exactly when all `maxTries` attempts abort,
and `newGame` surfaces the user-facing "could not build" failure
exactly when the first build and its three reshuffled retries all fail
(script.js:62-82, 275-284).  But on an empty dictionary every attempt
throws (`words[...]` is `undefined`, so `prev[4]` raises a TypeError at
script.js:72): the builder crashes instead of returning `null` —
`crashed` holds precisely for empty dictionaries — and the exception
propagates out of `newGame`, so the retries and the failure message
never run, contradicting the claimed exception-free reporting. -/
theorem build_failure_reporting :
    (∀ (words : List Word) (r : Rnd) (n : Nat),
      tryBuildChain words r n = .failure ↔
        ∀ t, t < n →
          runAttempt (buildIndexByFirstLetter words) words (r.start t) (r.pick t)
            = .abort) ∧
    (∀ (cache s1 s2 s3 : List Word) (r0 r1 r2 r3 : Rnd) (n : Nat),
      newGameChain cache s1 s2 s3 r0 r1 r2 r3 n = .failure ↔
        (tryBuildChain cache r0 n = .failure ∧ tryBuildChain s1 r1 n = .failure ∧
         tryBuildChain s2 r2 n = .failure ∧ tryBuildChain s3 r3 n = .failure)) ∧
    (∀ (words : List Word) (r : Rnd) (n : Nat),
      tryBuildChain words r (n + 1) = .crashed ↔ words = []) ∧
    (∀ (s1 s2 s3 : List Word) (r0 r1 r2 r3 : Rnd) (n : Nat),
      newGameChain [] s1 s2 s3 r0 r1 r2 r3 (n + 1) = .crashed) := by
  refine ⟨?_, ?_, ?_, ?_⟩
  · intro words r n
    unfold tryBuildChain
    have hiff := tryLoop_failure_iff (buildIndexByFirstLetter words) words r n 0
    simpa using hiff
  · intro cache s1 s2 s3 r0 r1 r2 r3 n
    unfold newGameChain
    cases h0 : tryBuildChain cache r0 n with
    | built c => simp
    | crashed => simp
    | failure =>
      cases h1 : tryBuildChain s1 r1 n with
      | built c => simp
      | crashed => simp
      | failure =>
        cases h2 : tryBuildChain s2 r2 n with
        | built c => simp
        | crashed => simp
        | failure => simp
  · intro words r n
    unfold tryBuildChain
    constructor
    · intro h
      by_contra hne
      exact tryLoop_ne_crashed (buildIndexByFirstLetter words) r hne (n + 1) 0 h
    · intro h
      subst h
      exact tryLoop_succ_crash _ _ _ 0 n rfl
  · intro s1 s2 s3 r0 r1 r2 r3 n
    have hcr : tryBuildChain [] r0 (n + 1) = .crashed := by
      unfold tryBuildChain
      exact tryLoop_succ_crash _ _ _ 0 n rfl
    simp [newGameChain, hcr]

end WordChain
